import Mathlib

/-!
Verification of the scoring and classification engine of
travelpurpose/utils/scoring.py.

Python dictionaries are embedded as insertion-ordered association lists
over String keys; float arithmetic is embedded as exact arithmetic
(rationals, and reals where the exponential function is involved).
-/

namespace TravelPurpose

/-! ### Python dict primitives over association lists -/

/-- First value stored under a key, if any (Python `d[k]` / `k in d`). -/
def dget? {α : Type} : List (String × α) → String → Option α
  | [], _ => none
  | p :: rest, k => if p.1 = k then some p.2 else dget? rest k

/-- Value under a key with a default (Python `d.get(k, default)`). -/
def dgetD {α : Type} (m : List (String × α)) (k : String) (d : α) : α :=
  (dget? m k).getD d

/-- Python `d[k] = v`: replace in place when the key exists, else append,
preserving insertion order. -/
def dset {α : Type} : List (String × α) → String → α → List (String × α)
  | [], k, v => [(k, v)]
  | p :: rest, k, v => if p.1 = k then (k, v) :: rest else p :: dset rest k v

theorem dget?_dset {α : Type} (m : List (String × α)) (k k' : String) (v : α) :
    dget? (dset m k v) k' = if k' = k then some v else dget? m k' := by
  induction m with
  | nil =>
    by_cases h : k' = k
    · simp [dset, dget?, h]
    · have hkk' : ¬k = k' := fun hh => h (Eq.symm hh)
      simp [dset, dget?, h, hkk']
  | cons p rest ih =>
    by_cases hp : p.1 = k
    · by_cases h : k' = k
      · simp [dset, dget?, hp, h]
      · have hpk' : ¬p.1 = k' := by rw [hp]; exact fun hh => h (Eq.symm hh)
        have hkk' : ¬k = k' := fun hh => h (Eq.symm hh)
        simp [dset, dget?, hp, h, hpk', hkk']
    · by_cases h : p.1 = k'
      · have hk'k : ¬k' = k := by rw [← h]; exact fun hh => hp hh
        simp [dset, dget?, hp, h, hk'k]
      · simp [dset, dget?, hp, h, ih]

theorem dgetD_dset {α : Type} (m : List (String × α)) (k k' : String) (v d : α) :
    dgetD (dset m k v) k' d = if k' = k then v else dgetD m k' d := by
  unfold dgetD
  rw [dget?_dset]
  by_cases h : k' = k <;> simp [h]

theorem isSome_dget?_dset {α : Type} (m : List (String × α)) (k k' : String) (v : α) :
    (dget? (dset m k v) k').isSome = ((dget? m k').isSome || (k' = k)) := by
  rw [dget?_dset]
  by_cases h : k' = k <;> simp [h]

/-! ### Strings: lower-casing and substring containment -/

/-- Python str.lower, character by character. -/
def strLower (s : String) : String := ⟨s.data.map Char.toLower⟩

/-- Does the first character list start the second one? -/
def charsStarts : List Char → List Char → Bool
  | [], _ => true
  | _ :: _, [] => false
  | a :: as, b :: bs => a == b && charsStarts as bs

/-- Contiguous-substring test on character lists (Python `n in h` on str). -/
def charsSub (n : List Char) : List Char → Bool
  | [] => charsStarts n []
  | b :: bs => charsStarts n (b :: bs) || charsSub n bs

/-- Python `n in h` for strings. -/
def strIn (n h : String) : Bool := charsSub n.data h.data

/-! ### numpy max over a value list (used on nonempty input only) -/

/-- Maximum of a list of values, 0 for the empty list (np.max is only ever
applied to nonempty arrays in the source; the 0 default is never reached). -/
def vMax {α : Type} [LinearOrder α] [Zero α] : List α → α
  | [] => 0
  | v :: vs => vs.foldl max v

theorem le_foldl_max {α : Type} [LinearOrder α] (vs : List α) (v : α) :
    v ≤ vs.foldl max v := by
  induction vs generalizing v with
  | nil => simp
  | cons x xs ih => exact le_trans (le_max_left v x) (ih (max v x))

theorem mem_le_foldl_max {α : Type} [LinearOrder α] (vs : List α) (v x : α)
    (hx : x ∈ vs) : x ≤ vs.foldl max v := by
  induction vs generalizing v with
  | nil => simp at hx
  | cons y ys ih =>
    rcases List.mem_cons.mp hx with h | h
    · subst h
      exact le_trans (le_max_right v x) (le_foldl_max ys (max v x))
    · exact ih (max v y) h

theorem foldl_max_mem {α : Type} [LinearOrder α] (vs : List α) (v : α) :
    vs.foldl max v = v ∨ vs.foldl max v ∈ vs := by
  induction vs generalizing v with
  | nil => simp
  | cons x xs ih =>
    rcases ih (max v x) with h | h
    · rcases max_cases v x with ⟨he, _⟩ | ⟨he, _⟩
      · exact Or.inl (by rw [List.foldl_cons, h, he])
      · exact Or.inr (by rw [List.foldl_cons, h, he]; exact List.mem_cons_self x xs)
    · exact Or.inr (List.mem_cons_of_mem x h)

theorem le_vMax {α : Type} [LinearOrder α] [Zero α] (l : List α) (x : α)
    (hx : x ∈ l) : x ≤ vMax l := by
  cases l with
  | nil => simp at hx
  | cons v vs =>
    rcases List.mem_cons.mp hx with h | h
    · subst h; exact le_foldl_max vs x
    · exact mem_le_foldl_max vs v x h

theorem vMax_mem {α : Type} [LinearOrder α] [Zero α] (l : List α) (hl : l ≠ []) :
    vMax l ∈ l := by
  cases l with
  | nil => exact absurd rfl hl
  | cons v vs =>
    rcases foldl_max_mem vs v with h | h
    · rw [vMax, h]; exact List.mem_cons_self v vs
    · exact List.mem_cons_of_mem v h

theorem vMax_of_all_zero {α : Type} [LinearOrder α] [Zero α] (l : List α)
    (h : ∀ x ∈ l, x = 0) : vMax l = 0 := by
  cases l with
  | nil => rfl
  | cons v vs =>
    rcases foldl_max_mem vs v with hm | hm
    · rw [vMax, hm]; exact h v (List.mem_cons_self v vs)
    · rw [vMax]; exact h _ (List.mem_cons_of_mem v hm)

/-! ### Evidence weighting: calculate_tag_weights -/

/-- One evidence record: a Python dict with tag, source and evidence_type
fields; a missing field reads as the empty string, matching dict.get defaults. -/
structure TagEntry where
  tag : String
  source : String
  evidence_type : String
deriving DecidableEq

/-- Default source-trust table of calculate_tag_weights. -/
def defaultSourceWeights : List (String × ℚ) :=
  [("wikidata", 3/2), ("wikipedia", 13/10), ("unesco", 2), ("booking", 1),
   ("agoda", 1), ("trivago", 9/10), ("kayak", 9/10), ("tripdotcom", 9/10),
   ("skyscanner", 4/5)]

/-- Weight contributed by a single evidence record: source trust (unknown
sources default to 1/2) times the evidence_type multiplier. -/
def entryWeight (sw : List (String × ℚ)) (e : TagEntry) : ℚ :=
  let w := dgetD sw (strLower e.source) (1/2)
  if e.evidence_type = "jsonld" then w * (6/5)
  else if e.evidence_type = "meta" then w * 1
  else if e.evidence_type = "heading" then w * (4/5)
  else w

/-- One loop iteration of calculate_tag_weights: skip blank tags, else
accumulate the entry's weight under the lower-cased tag. -/
def tagStep (sw : List (String × ℚ)) (m : List (String × ℚ)) (e : TagEntry) :
    List (String × ℚ) :=
  let tag := strLower e.tag
  if tag = "" then m
  else dset m tag (dgetD m tag 0 + entryWeight sw e)

/-- Embedding of calculate_tag_weights(tags, source_weights). -/
def calculate_tag_weights (tags : List TagEntry) (sw : List (String × ℚ)) :
    List (String × ℚ) :=
  tags.foldl (tagStep sw) []

/-- Contribution of one evidence record to the weight accumulated at key k. -/
def contribOf (sw : List (String × ℚ)) (k : String) (e : TagEntry) : ℚ :=
  if strLower e.tag = k then entryWeight sw e else 0

/-! ### Confidence: calculate_confidence -/

/-- Embedding of calculate_confidence(main_scores, sub_scores, min_confidence). -/
def calculate_confidence (main_scores sub_scores : List (String × ℚ))
    (min_confidence : ℚ) : ℚ :=
  if main_scores = [] ∧ sub_scores = [] then 0
  else
    let main_max := vMax (main_scores.map (·.2))
    let sub_max := vMax (sub_scores.map (·.2))
    let confidence := (7/10) * main_max + (3/10) * sub_max
    if confidence < min_confidence then 0 else min confidence 1

/-! ### Label selection: select_top_labels -/

/-- Stable descending insertion by score: the inserted pair goes before the
first pair whose score is at most its own, so pairs with equal scores keep
their original relative order, exactly as Python's stable sort with
reverse=True does. -/
def insDesc (p : String × ℚ) : List (String × ℚ) → List (String × ℚ)
  | [] => [p]
  | q :: rest => if q.2 ≤ p.2 then p :: q :: rest else q :: insDesc p rest

/-- Stable sort by score descending (list.sort(key=score, reverse=True)). -/
def sortDesc (l : List (String × ℚ)) : List (String × ℚ) := l.foldr insDesc []

/-- Python list slice l[:n], including the negative-n case which keeps all
but the last -n elements. -/
def pySlice {α : Type} (l : List α) (n : Int) : List α :=
  if 0 ≤ n then l.take n.toNat else l.take ((l.length : Int) + n).toNat

/-- Embedding of select_top_labels(scores, threshold, max_labels): filter by
score >= threshold, stable-sort descending by score, slice to max_labels. -/
def select_top_labels (scores : List (String × ℚ)) (threshold : ℚ)
    (max_labels : Int) : List (String × ℚ) :=
  pySlice (sortDesc (scores.filter (fun p => threshold ≤ p.2))) max_labels

/-! ### Category aggregation: aggregate_scores_by_category -/

/-- One taxonomy entry: keyword list, main-category label and subcategory
labels. A missing or None main label reads as the empty string, which the
source's falsy check then skips. -/
structure MappingConfig where
  keywords : List String
  main : String
  sub : List String
deriving DecidableEq

/-- Case-insensitive substring match in either direction between a keyword
and a tag, as in the source's inner loop condition. -/
def matchesB (keyword tag : String) : Bool :=
  strIn (strLower keyword) (strLower tag) || strIn (strLower tag) (strLower keyword)

/-- Similarity score the source computes for a matching keyword-tag pair:
len(keyword) / max(len(keyword), len(tag)). -/
def pairScore (keyword tag : String) : ℚ :=
  (keyword.data.length : ℚ) / max (keyword.data.length : ℚ) (tag.data.length : ℚ)

/-- Best-match scan over the taxonomy in declared order: keep the first
strictly improving (entry, score); ties keep the earlier entry. -/
def bestFor (tag_mappings : List (String × MappingConfig)) (tag : String) :
    Option MappingConfig × ℚ :=
  tag_mappings.foldl (fun best mp =>
    mp.2.keywords.foldl (fun b keyword =>
      if matchesB keyword tag then
        if b.2 < pairScore keyword tag then (some mp.2, pairScore keyword tag) else b
      else b) best) (none, 0)

/-- Add the same amount under every label of a list, accumulating (the
shared shape of the main/sub update loops in the source). -/
def applyAdd (m : List (String × ℚ)) (cats : List String) (amt : ℚ) :
    List (String × ℚ) :=
  cats.foldl (fun m c => dset m c (dgetD m c 0 + amt)) m

/-- Embedding of aggregate_scores_by_category(tag_weights, tag_mappings). -/
def aggregate_scores_by_category (tag_weights : List (String × ℚ))
    (tag_mappings : List (String × MappingConfig)) :
    List (String × ℚ) × List (String × ℚ) :=
  tag_weights.foldl (fun acc tw =>
    let best := bestFor tag_mappings tw.1
    match best.1 with
    | none => acc
    | some mc =>
      let ms := if mc.main = "" then acc.1
        else dset acc.1 mc.main (dgetD acc.1 mc.main 0 + tw.2 * best.2)
      (ms, applyAdd acc.2 mc.sub (tw.2 * best.2))) ([], [])

/-! ### External purpose merging: merge_nbd_purposes -/

/-- One purpose-mapping entry: the main and sub category lists it implies.
A missing list reads as empty, matching dict.get defaults. -/
structure NbdEntry where
  main : List String
  sub : List String
deriving DecidableEq

/-- The empty purpose-mapping entry (the source's final {} fallback). -/
def emptyNbdEntry : NbdEntry := ⟨[], []⟩

/-- One loop iteration of merge_nbd_purposes: the purpose's mapped entry
(or DEFAULT, or empty) adds nbd_weight under each of its main and sub
categories. -/
def mergeStep (ntm : List (String × NbdEntry)) (nbd_weight : ℚ)
    (acc : List (String × ℚ) × List (String × ℚ)) (purpose : String) :
    List (String × ℚ) × List (String × ℚ) :=
  let mapping := (dget? ntm purpose).getD ((dget? ntm "DEFAULT").getD emptyNbdEntry)
  (applyAdd acc.1 mapping.main nbd_weight,
   applyAdd acc.2 mapping.sub nbd_weight)

/-- Embedding of merge_nbd_purposes(main_scores, sub_scores, nbd_purposes,
nbd_mapping, nbd_weight). The source's initial .copy() calls are the
identity in this pure embedding; the store-level model below makes them
explicit. -/
def merge_nbd_purposes (main_scores sub_scores : List (String × ℚ))
    (nbd_purposes : List String)
    (nbd_mapping : List (String × List (String × NbdEntry))) (nbd_weight : ℚ) :
    List (String × ℚ) × List (String × ℚ) :=
  let ntm := dgetD nbd_mapping "nbd_to_main" []
  nbd_purposes.foldl (mergeStep ntm nbd_weight) (main_scores, sub_scores)

/-! ### Store-level model of merge_nbd_purposes for the aliasing claim

Python dict arguments are references into a heap. The store model makes that
explicit: a store is a list of dict values, a reference is an index, and
merge_nbd_purposes first allocates copies of its two arguments (the
source's .copy() calls on lines 213-214) and then mutates only the copies. -/

/-- Read a reference from the store. -/
def readRef (st : List (List (String × ℚ))) (r : ℕ) : List (String × ℚ) :=
  st.getD r []

/-- One loop iteration of the store-level merge: mutate the main copy in
place, then the sub copy in place (reading the store as updated so far). -/
def mergeRefStep (msC ssC : ℕ) (ntm : List (String × NbdEntry)) (nbd_weight : ℚ)
    (s : List (List (String × ℚ))) (purpose : String) :
    List (List (String × ℚ)) :=
  let mapping := (dget? ntm purpose).getD ((dget? ntm "DEFAULT").getD emptyNbdEntry)
  let s1 := s.set msC (applyAdd (readRef s msC) mapping.main nbd_weight)
  s1.set ssC (applyAdd (readRef s1 ssC) mapping.sub nbd_weight)

/-- Store-level merge_nbd_purposes: copies the two argument dicts into fresh
cells, folds the purpose loop mutating only those cells, and returns the
final store with the two fresh references. -/
def merge_nbd_purposes_refs (st : List (List (String × ℚ))) (msR ssR : ℕ)
    (nbd_purposes : List String)
    (nbd_mapping : List (String × List (String × NbdEntry))) (nbd_weight : ℚ) :
    List (List (String × ℚ)) × ℕ × ℕ :=
  let msC := st.length
  let st1 := st ++ [readRef st msR]
  let ssC := st1.length
  let st2 := st1 ++ [readRef st1 ssR]
  let ntm := dgetD nbd_mapping "nbd_to_main" []
  (nbd_purposes.foldl (mergeRefStep msC ssC ntm nbd_weight) st2, msC, ssC)

/-! ### Normalization: normalize_scores (real-valued, uses exp) -/

open Classical in
/-- Embedding of normalize_scores(scores): softmax over the values after
subtracting the maximum, with the empty and zero-max guards of the source. -/
noncomputable def normalize_scores (scores : List (String × ℝ)) :
    List (String × ℝ) :=
  if scores = [] then []
  else
    let values := scores.map (·.2)
    if values = [] ∨ vMax values = 0 then scores.map (fun p => (p.1, (0 : ℝ)))
    else
      let exps := values.map (fun v => Real.exp (v - vMax values))
      (scores.map (·.1)).zip (exps.map (fun e => e / exps.sum))

/-! ## Theorems about normalize_scores -/

theorem list_sum_map_div (l : List ℝ) (c : ℝ) :
    (l.map (fun x => x / c)).sum = l.sum / c := by
  induction l with
  | nil => simp
  | cons x xs ih => simp [ih, add_div]

/-- C1 (amended): for every non-empty score map whose maximum value is
nonzero, normalize_scores returns a map with the same keys, all values
nonnegative, and value sum within 1e-6 of 1 (it is exactly 1). -/
theorem normalize_scores_distribution (scores : List (String × ℝ))
    (h1 : scores ≠ []) (h2 : vMax (scores.map (·.2)) ≠ 0) :
    (normalize_scores scores).map (·.1) = scores.map (·.1) ∧
    (∀ v ∈ (normalize_scores scores).map (·.2), 0 ≤ v) ∧
    |((normalize_scores scores).map (·.2)).sum - 1| ≤ 1 / 1000000 := by
  have hv : scores.map (·.2) ≠ [] := by
    intro h
    exact h1 (by simpa using congrArg List.length h)
  have hcond : ¬((scores.map (·.2)) = [] ∨ vMax (scores.map (·.2)) = 0) :=
    not_or.mpr ⟨hv, h2⟩
  simp only [normalize_scores]
  rw [if_neg h1, if_neg hcond]
  set values := scores.map (·.2) with hval
  set M := vMax values with hM
  set exps := values.map (fun v => Real.exp (v - M)) with hexps
  have hexpne : exps ≠ [] := by
    intro h
    exact hv (by simpa [hexps] using congrArg List.length h)
  have hpos : 0 < exps.sum := by
    refine List.sum_pos exps ?_ hexpne
    intro x hx
    rcases List.mem_map.mp hx with ⟨v, _, rfl⟩
    exact Real.exp_pos _
  have hlen : (scores.map (·.1)).length = (exps.map (fun e => e / exps.sum)).length := by
    simp [hexps, hval]
  refine ⟨?_, ?_, ?_⟩
  · exact List.map_fst_zip _ _ (le_of_eq hlen)
  · intro v hv'
    have hsnd : List.map Prod.snd ((scores.map (·.1)).zip (exps.map (fun e => e / exps.sum)))
        = exps.map (fun e => e / exps.sum) :=
      List.map_snd_zip _ _ (le_of_eq hlen.symm)
    rw [show (fun p : String × ℝ => p.2) = @Prod.snd String ℝ from rfl, hsnd] at hv'
    rcases List.mem_map.mp hv' with ⟨e, he, rfl⟩
    rcases List.mem_map.mp he with ⟨w, _, rfl⟩
    exact div_nonneg (le_of_lt (Real.exp_pos _)) (le_of_lt hpos)
  · have hsnd : List.map Prod.snd ((scores.map (·.1)).zip (exps.map (fun e => e / exps.sum)))
        = exps.map (fun e => e / exps.sum) :=
      List.map_snd_zip _ _ (le_of_eq hlen.symm)
    rw [show (fun p : String × ℝ => p.2) = @Prod.snd String ℝ from rfl, hsnd,
      list_sum_map_div, div_self (ne_of_gt hpos)]
    norm_num

/-- C1 counterexample for the claim as stated: the map with values -1 and 0
is not all zero, yet its maximum is 0, so normalize_scores returns the
all-zero map and the output sum is 0, not within 1e-6 of 1. -/
theorem normalize_scores_not_all_zero_cex :
    (¬((-1 : ℝ) = 0)) ∧
    normalize_scores [("a", -1), ("b", 0)] = [("a", 0), ("b", 0)] ∧
    ¬(|((normalize_scores [("a", -1), ("b", 0)]).map (·.2)).sum - 1| ≤ 1 / 1000000) := by
  have hval : normalize_scores [("a", -1), ("b", 0)] = [("a", 0), ("b", 0)] := by
    simp only [normalize_scores]
    rw [if_neg (by simp), if_pos (by norm_num [vMax])]
    simp
  refine ⟨by norm_num, hval, ?_⟩
  rw [hval]
  norm_num

/-- C7: normalize_scores maps the empty dict to the empty dict, and a dict
whose values are all exactly zero to the same-keyed dict of exact zeros. -/
theorem normalize_scores_degenerate (scores : List (String × ℝ))
    (h : ∀ v ∈ scores.map (·.2), v = 0) :
    normalize_scores scores = scores.map (fun p => (p.1, (0 : ℝ))) ∧
    normalize_scores ([] : List (String × ℝ)) = [] := by
  refine ⟨?_, by simp [normalize_scores]⟩
  by_cases hs : scores = []
  · subst hs; simp [normalize_scores]
  · simp only [normalize_scores]
    rw [if_neg hs, if_pos (Or.inr (vMax_of_all_zero _ h))]

/-- C7 witness: the degenerate behaviour at the concrete all-zero two-key
dict of the spec and at the empty dict. -/
theorem normalize_scores_degenerate_witness :
    normalize_scores [("a", (0 : ℝ)), ("b", 0)] = [("a", 0), ("b", 0)] ∧
    normalize_scores ([] : List (String × ℝ)) = [] := by
  have h := normalize_scores_degenerate [("a", (0 : ℝ)), ("b", 0)] (by simp)
  simpa using h

/-- C1 witness: the singleton map with value 1 has nonzero maximum; the
distribution properties hold there. -/
theorem normalize_scores_distribution_witness :
    (normalize_scores [("a", (1 : ℝ))]).map (·.1) = [("a", (1 : ℝ))].map (·.1) ∧
    (∀ v ∈ (normalize_scores [("a", (1 : ℝ))]).map (·.2), 0 ≤ v) ∧
    |((normalize_scores [("a", (1 : ℝ))]).map (·.2)).sum - 1| ≤ 1 / 1000000 :=
  normalize_scores_distribution [("a", 1)] (by simp) (by norm_num [vMax])

/-! ## Theorems about calculate_confidence -/

/-- Specification-side description of Python max(values) with default 0:
either the map is empty and the maximum is 0, or the maximum is one of the
values and bounds them all. -/
def IsMaxOf (M : ℚ) (m : List (String × ℚ)) : Prop :=
  (m = [] ∧ M = 0) ∨ (M ∈ m.map (·.2) ∧ ∀ v ∈ m.map (·.2), v ≤ M)

theorem vMax_eq_of_isMaxOf {M : ℚ} {m : List (String × ℚ)} (h : IsMaxOf M m) :
    vMax (m.map (·.2)) = M := by
  rcases h with ⟨hm, hM⟩ | ⟨hmem, hub⟩
  · subst hm; simpa [vMax] using hM.symm
  · have hne : m.map (·.2) ≠ [] := by
      intro h
      rw [h] at hmem
      simp at hmem
    exact le_antisymm (hub _ (vMax_mem _ hne)) (le_vMax _ _ hmem)

/-- C2 (amended): provided the confidence floor is nonnegative,
calculate_confidence is in [0,1], returns 0 when both maps are empty,
returns exactly 0 when the weighted-max formula value is strictly below
the floor, and otherwise returns the formula value clamped above at 1. -/
theorem calculate_confidence_characterization
    (ms ss : List (String × ℚ)) (floor M₁ M₂ : ℚ)
    (hfloor : 0 ≤ floor) (h1 : IsMaxOf M₁ ms) (h2 : IsMaxOf M₂ ss) :
    (0 ≤ calculate_confidence ms ss floor ∧ calculate_confidence ms ss floor ≤ 1) ∧
    (ms = [] ∧ ss = [] → calculate_confidence ms ss floor = 0) ∧
    ((7/10) * M₁ + (3/10) * M₂ < floor → calculate_confidence ms ss floor = 0) ∧
    (floor ≤ (7/10) * M₁ + (3/10) * M₂ →
      calculate_confidence ms ss floor = min ((7/10) * M₁ + (3/10) * M₂) 1) := by
  have hv1 : vMax (ms.map (·.2)) = M₁ := vMax_eq_of_isMaxOf h1
  have hv2 : vMax (ss.map (·.2)) = M₂ := vMax_eq_of_isMaxOf h2
  simp only [calculate_confidence, hv1, hv2]
  by_cases hemp : ms = [] ∧ ss = []
  · have hM1 : M₁ = 0 := by
      rcases h1 with ⟨_, h⟩ | ⟨hmem, _⟩
      · exact h
      · rw [hemp.1] at hmem; simp at hmem
    have hM2 : M₂ = 0 := by
      rcases h2 with ⟨_, h⟩ | ⟨hmem, _⟩
      · exact h
      · rw [hemp.2] at hmem; simp at hmem
    rw [if_pos hemp]
    refine ⟨⟨le_refl 0, by norm_num⟩, fun _ => rfl, fun _ => rfl, fun hle => ?_⟩
    rw [hM1, hM2] at hle ⊢
    have : floor = 0 := le_antisymm (by linarith) hfloor
    norm_num
  · rw [if_neg hemp]
    by_cases hcliff : (7/10) * M₁ + (3/10) * M₂ < floor
    · rw [if_pos hcliff]
      exact ⟨⟨le_refl 0, by norm_num⟩, fun h => absurd h hemp,
        fun _ => rfl, fun hle => absurd hcliff (not_lt.mpr hle)⟩
    · rw [if_neg hcliff]
      have hge : floor ≤ (7/10) * M₁ + (3/10) * M₂ := not_lt.mp hcliff
      have h0 : (0:ℚ) ≤ (7/10) * M₁ + (3/10) * M₂ := le_trans hfloor hge
      exact ⟨⟨le_min h0 (by norm_num), min_le_right _ _⟩,
        fun h => absurd h hemp, fun h => absurd h hcliff, fun _ => rfl⟩

/-- C2 witness: at main = [("a", 4/5)], sub = [], floor = 1/10, the formula
value 14/25 is at least the floor and the result is min (14/25) 1. -/
theorem calculate_confidence_characterization_witness :
    (0 ≤ calculate_confidence [("a", 4/5)] [] (1/10) ∧
      calculate_confidence [("a", 4/5)] [] (1/10) ≤ 1) ∧
    ([("a", (4/5 : ℚ))] = [] ∧ ([] : List (String × ℚ)) = [] →
      calculate_confidence [("a", 4/5)] [] (1/10) = 0) ∧
    ((7/10) * (4/5) + (3/10) * 0 < (1/10 : ℚ) →
      calculate_confidence [("a", 4/5)] [] (1/10) = 0) ∧
    ((1/10 : ℚ) ≤ (7/10) * (4/5) + (3/10) * 0 →
      calculate_confidence [("a", 4/5)] [] (1/10) = min ((7/10) * (4/5) + (3/10) * 0) 1) :=
  calculate_confidence_characterization [("a", 4/5)] [] (1/10) (4/5) 0
    (by norm_num) (Or.inr (by norm_num)) (Or.inl ⟨rfl, rfl⟩)

/-- C2 counterexample for the claim as stated: with a negative floor and a
negative main score the code returns -7/10, which is outside [0,1], so the
claim's "returns a value in [0,1] for all inputs" fails without a
nonnegative-floor hypothesis. -/
theorem calculate_confidence_not_in_unit_cex :
    calculate_confidence [("a", -1)] [] (-1) = -7/10 ∧
    ¬(0 ≤ calculate_confidence [("a", -1)] [] (-1)) := by
  constructor <;> norm_num [calculate_confidence, vMax]

/-- C8 (amended): for fixed sub_scores and floor, strictly increasing the
maximum main value strictly increases the confidence, provided the smaller
formula value is at least the floor and strictly below 1. -/
theorem calculate_confidence_strict_mono
    (ms₁ ms₂ ss : List (String × ℚ)) (floor : ℚ)
    (hfloor : floor ≤ (7/10) * vMax (ms₁.map (·.2)) + (3/10) * vMax (ss.map (·.2)))
    (hlt1 : (7/10) * vMax (ms₁.map (·.2)) + (3/10) * vMax (ss.map (·.2)) < 1)
    (hmax : vMax (ms₁.map (·.2)) < vMax (ms₂.map (·.2))) :
    calculate_confidence ms₁ ss floor < calculate_confidence ms₂ ss floor := by
  set a₁ := vMax (ms₁.map (·.2)) with ha₁
  set a₂ := vMax (ms₂.map (·.2)) with ha₂
  set b := vMax (ss.map (·.2)) with hb
  have hr : (7/10) * a₁ + (3/10) * b < (7/10) * a₂ + (3/10) * b := by linarith
  have hconf₁ : calculate_confidence ms₁ ss floor = (7/10) * a₁ + (3/10) * b := by
    simp only [calculate_confidence, ← ha₁, ← hb]
    by_cases hemp : ms₁ = [] ∧ ss = []
    · have hA : a₁ = 0 := by rw [ha₁, hemp.1]; rfl
      have hB : b = 0 := by rw [hb, hemp.2]; rfl
      rw [if_pos hemp, hA, hB]; norm_num
    · rw [if_neg hemp, if_neg (not_lt.mpr hfloor)]
      exact min_eq_left (le_of_lt hlt1)
  have hconf₂ : calculate_confidence ms₂ ss floor
      = min ((7/10) * a₂ + (3/10) * b) 1 := by
    simp only [calculate_confidence, ← ha₂, ← hb]
    by_cases hemp : ms₂ = [] ∧ ss = []
    · have hA : a₂ = 0 := by rw [ha₂, hemp.1]; rfl
      have hB : b = 0 := by rw [hb, hemp.2]; rfl
      rw [if_pos hemp, hA, hB]; norm_num
    · rw [if_neg hemp, if_neg (by push_neg; linarith)]
  rw [hconf₁, hconf₂]
  exact lt_min hr hlt1

/-- C8 witness: raising the single main score from 1/2 to 3/5 with empty
sub scores and floor 1/10 strictly increases the confidence. -/
theorem calculate_confidence_strict_mono_witness :
    calculate_confidence [("a", 1/2)] [] (1/10) <
      calculate_confidence [("a", 3/5)] [] (1/10) :=
  calculate_confidence_strict_mono [("a", 1/2)] [("a", 3/5)] [] (1/10)
    (by norm_num [vMax]) (by norm_num [vMax]) (by norm_num [vMax])

/-- C8 counterexample for the claim as stated: both 0.05 and 0.1 fall below
the default floor 0.1 after weighting, so both confidences are exactly 0:
the increase in maximum main value does not strictly increase confidence,
and neither result is the upper clamp 1. -/
theorem calculate_confidence_mono_cex :
    calculate_confidence [("a", 1/20)] [] (1/10) = 0 ∧
    calculate_confidence [("a", 1/10)] [] (1/10) = 0 ∧
    ¬(calculate_confidence [("a", 1/20)] [] (1/10) <
        calculate_confidence [("a", 1/10)] [] (1/10)) ∧
    calculate_confidence [("a", 1/10)] [] (1/10) ≠ 1 := by
  refine ⟨?_, ?_, ?_, ?_⟩ <;> norm_num [calculate_confidence, vMax]

/-! ## Theorems about select_top_labels -/

theorem insDesc_perm (p : String × ℚ) (l : List (String × ℚ)) :
    List.Perm (insDesc p l) (p :: l) := by
  induction l with
  | nil => simp [insDesc]
  | cons q rest ih =>
    by_cases h : q.2 ≤ p.2
    · simp [insDesc, h]
    · simp only [insDesc, if_neg h]
      exact (ih.cons q).trans (List.Perm.swap p q rest)

theorem sortDesc_perm (l : List (String × ℚ)) : List.Perm (sortDesc l) l := by
  induction l with
  | nil => rfl
  | cons p rest ih =>
    have : sortDesc (p :: rest) = insDesc p (sortDesc rest) := rfl
    rw [this]
    exact (insDesc_perm p (sortDesc rest)).trans (ih.cons p)

theorem insDesc_pairwise (p : String × ℚ) (l : List (String × ℚ))
    (h : l.Pairwise (fun a b => b.2 ≤ a.2)) :
    (insDesc p l).Pairwise (fun a b => b.2 ≤ a.2) := by
  induction l with
  | nil => simp [insDesc]
  | cons q rest ih =>
    rcases List.pairwise_cons.mp h with ⟨hq, hrest⟩
    by_cases hle : q.2 ≤ p.2
    · simp only [insDesc, if_pos hle]
      refine List.pairwise_cons.mpr ⟨?_, h⟩
      intro x hx
      rcases List.mem_cons.mp hx with rfl | hx
      · exact hle
      · exact le_trans (hq x hx) hle
    · simp only [insDesc, if_neg hle]
      refine List.pairwise_cons.mpr ⟨?_, ih hrest⟩
      intro x hx
      rcases List.mem_cons.mp ((insDesc_perm p rest).mem_iff.mp hx) with rfl | hx
      · exact le_of_lt (lt_of_not_le hle)
      · exact hq x hx

theorem sortDesc_pairwise (l : List (String × ℚ)) :
    (sortDesc l).Pairwise (fun a b => b.2 ≤ a.2) := by
  induction l with
  | nil => simp [sortDesc]
  | cons p rest ih => exact insDesc_pairwise p (sortDesc rest) ih

theorem pySlice_ofNat {α : Type} (l : List α) (n : ℕ) :
    pySlice l (n : Int) = l.take n := by
  simp [pySlice]

/-- C3: select_top_labels keeps exactly the pairs scoring at least the
threshold, sorted by score descending, truncated to at most max_labels
entries, every returned pair coming from the input; when the filtered list
fits in max_labels nothing above threshold is dropped; and on the spec's
concrete four-label example with threshold 1/10 and max_labels 3 the result
is business, leisure, culture in that order, with beach absent. -/
theorem select_top_labels_spec (scores : List (String × ℚ)) (threshold : ℚ) (n : ℕ) :
    (∀ p ∈ select_top_labels scores threshold (n : Int),
      threshold ≤ p.2 ∧ p ∈ scores) ∧
    (select_top_labels scores threshold (n : Int)).Pairwise (fun a b => b.2 ≤ a.2) ∧
    (select_top_labels scores threshold (n : Int)).length
      = min n (scores.filter (fun p => threshold ≤ p.2)).length ∧
    ((scores.filter (fun p => threshold ≤ p.2)).length ≤ n →
      ∀ p ∈ scores, threshold ≤ p.2 →
        p ∈ select_top_labels scores threshold (n : Int)) ∧
    (∀ p ∈ scores, threshold ≤ p.2 →
      p ∉ select_top_labels scores threshold (n : Int) →
      ∀ q ∈ select_top_labels scores threshold (n : Int), p.2 ≤ q.2) ∧
    select_top_labels
        [("business", 1/2), ("leisure", 3/10), ("culture", 3/20), ("beach", 1/20)]
        (1/10) 3
      = [("business", 1/2), ("leisure", 3/10), ("culture", 3/20)] := by
  have hdef : select_top_labels scores threshold (n : Int)
      = (sortDesc (scores.filter (fun p => threshold ≤ p.2))).take n := by
    rw [select_top_labels, pySlice_ofNat]
  refine ⟨?_, ?_, ?_, ?_, ?_, ?_⟩
  · intro p hp
    rw [hdef] at hp
    have hmem : p ∈ scores.filter (fun p => threshold ≤ p.2) :=
      (sortDesc_perm _).mem_iff.mp (List.mem_of_mem_take hp)
    rcases List.mem_filter.mp hmem with ⟨hin, hth⟩
    exact ⟨of_decide_eq_true hth, hin⟩
  · rw [hdef]
    exact List.Pairwise.sublist (List.take_sublist _ _) (sortDesc_pairwise _)
  · rw [hdef, List.length_take, (sortDesc_perm _).length_eq]
  · intro hlen p hin hth
    rw [hdef]
    have hfl : p ∈ scores.filter (fun p => threshold ≤ p.2) :=
      List.mem_filter.mpr ⟨hin, decide_eq_true hth⟩
    have hsl : p ∈ sortDesc (scores.filter (fun p => threshold ≤ p.2)) :=
      (sortDesc_perm _).mem_iff.mpr hfl
    rw [List.take_of_length_le (by rw [(sortDesc_perm _).length_eq]; exact hlen)]
    exact hsl
  · intro p hin hth hnot q hq
    rw [hdef] at hnot hq
    have hfl : p ∈ scores.filter (fun p => threshold ≤ p.2) :=
      List.mem_filter.mpr ⟨hin, decide_eq_true hth⟩
    have hsl : p ∈ sortDesc (scores.filter (fun p => threshold ≤ p.2)) :=
      (sortDesc_perm _).mem_iff.mpr hfl
    have hsplit := List.take_append_drop n (sortDesc (scores.filter (fun p => threshold ≤ p.2)))
    have hpw := sortDesc_pairwise (scores.filter (fun p => threshold ≤ p.2))
    rw [← hsplit] at hpw
    rcases List.pairwise_append.mp hpw with ⟨_, _, hcross⟩
    have hp' : p ∈ (sortDesc (scores.filter (fun p => threshold ≤ p.2))).take n
        ++ (sortDesc (scores.filter (fun p => threshold ≤ p.2))).drop n := by
      rw [hsplit]; exact hsl
    rcases List.mem_append.mp hp' with hp'' | hp''
    · exact absurd hp'' hnot
    · exact hcross q hq p hp''
  · norm_num +decide [select_top_labels, pySlice, sortDesc, insDesc, List.filter]

/-- C9 counterexample for the claim as stated: a negative threshold and a
negative max_labels are both silently tolerated: select_top_labels returns
an ordinary result list instead of raising an error (with max_labels = -1
the Python slice drops the trailing entry). -/
theorem select_top_labels_no_error_cex :
    select_top_labels [("a", 1/2)] (-1) 5 = [("a", 1/2)] ∧
    select_top_labels [("a", 1/2), ("b", 3/10)] (1/10) (-1) = [("a", 1/2)] := by
  constructor <;>
    norm_num +decide [select_top_labels, pySlice, sortDesc, insDesc, List.filter]

/-- C9 (amended): passing a negative threshold or a negative max_labels is
silently tolerated, not an error: a negative threshold filters nothing when
all scores are nonnegative, and a negative max_labels -m keeps all but the
last m sorted entries, Python slice style. -/
theorem select_top_labels_negative_tolerated
    (scores : List (String × ℚ)) (threshold : ℚ) (m : ℕ)
    (hth : threshold < 0) (hs : ∀ p ∈ scores, 0 ≤ p.2) (hm : 0 < m) :
    scores.filter (fun p => threshold ≤ p.2) = scores ∧
    select_top_labels scores threshold (-(m : Int))
      = (sortDesc scores).take (scores.length - m) := by
  have hfl : scores.filter (fun p => threshold ≤ p.2) = scores := by
    apply List.filter_eq_self.mpr
    intro p hp
    exact decide_eq_true (le_trans (le_of_lt hth) (hs p hp))
  refine ⟨hfl, ?_⟩
  rw [select_top_labels, hfl, pySlice, if_neg (by omega)]
  congr 1
  rw [(sortDesc_perm scores).length_eq]
  omega

/-- C9 witness: with threshold -1 and max_labels -1 on a two-entry map the
call returns the sorted list minus its last entry and raises nothing. -/
theorem select_top_labels_negative_tolerated_witness :
    [("a", (1/2 : ℚ)), ("b", 3/10)].filter (fun p => (-1 : ℚ) ≤ p.2)
        = [("a", 1/2), ("b", 3/10)] ∧
    select_top_labels [("a", 1/2), ("b", 3/10)] (-1) (-(1 : Int))
      = (sortDesc [("a", 1/2), ("b", 3/10)]).take
          ([("a", (1/2 : ℚ)), ("b", 3/10)].length - 1) :=
  select_top_labels_negative_tolerated [("a", 1/2), ("b", 3/10)] (-1) 1
    (by norm_num) (by norm_num) (by norm_num)

/-! ## Theorems about calculate_tag_weights -/

theorem tagStep_empty_key (sw : List (String × ℚ)) (l : List TagEntry)
    (m : List (String × ℚ)) :
    dget? (l.foldl (tagStep sw) m) "" = dget? m "" := by
  induction l generalizing m with
  | nil => rfl
  | cons e rest ih =>
    rw [List.foldl_cons, ih]
    unfold tagStep
    by_cases h : strLower e.tag = ""
    · rw [if_pos h]
    · rw [if_neg h, dget?_dset, if_neg (fun hh => h hh.symm)]

theorem tagWeights_value (sw : List (String × ℚ)) (k : String) (hk : k ≠ "")
    (l : List TagEntry) (m : List (String × ℚ)) :
    dgetD (l.foldl (tagStep sw) m) k 0
      = dgetD m k 0 + (l.map (contribOf sw k)).sum := by
  induction l generalizing m with
  | nil => simp
  | cons e rest ih =>
    rw [List.foldl_cons, ih, List.map_cons, List.sum_cons]
    unfold tagStep contribOf
    by_cases h : strLower e.tag = ""
    · have hne : ¬strLower e.tag = k := by rw [h]; exact fun hh => hk hh.symm
      rw [if_pos h, if_neg hne]
      ring
    · rw [if_neg h, dgetD_dset]
      by_cases hek : k = strLower e.tag
      · rw [if_pos hek, if_pos hek.symm, ← hek]
        ring
      · rw [if_neg hek, if_neg (fun hh => hek hh.symm)]
        ring

theorem tagWeights_presence (sw : List (String × ℚ)) (k : String) (hk : k ≠ "")
    (l : List TagEntry) (m : List (String × ℚ)) :
    (dget? (l.foldl (tagStep sw) m) k).isSome
      = ((dget? m k).isSome || l.any (fun e => strLower e.tag = k)) := by
  induction l generalizing m with
  | nil => simp
  | cons e rest ih =>
    rw [List.foldl_cons, ih, List.any_cons]
    unfold tagStep
    by_cases h : strLower e.tag = ""
    · have hne : ¬strLower e.tag = k := by rw [h]; exact fun hh => hk hh.symm
      rw [if_pos h]
      simp [hne]
    · rw [if_neg h, isSome_dget?_dset]
      by_cases hek : k = strLower e.tag
      · simp [hek]
      · have : ¬strLower e.tag = k := fun hh => hek hh.symm
        simp [hek, this]

/-- C5: calculate_tag_weights is invariant under permutation of the
evidence list: for any permutation, the resulting tag-weight dicts agree on
every key, both in presence and in accumulated value. -/
theorem calculate_tag_weights_perm_invariant (sw : List (String × ℚ))
    (l l' : List TagEntry) (h : List.Perm l l') (k : String) :
    dget? (calculate_tag_weights l sw) k = dget? (calculate_tag_weights l' sw) k := by
  by_cases hk : k = ""
  · subst hk
    rw [calculate_tag_weights, calculate_tag_weights,
      tagStep_empty_key, tagStep_empty_key]
  · have hany : l.any (fun e => strLower e.tag = k)
        = l'.any (fun e => strLower e.tag = k) := by
      cases ha : l.any (fun e => strLower e.tag = k) with
      | true =>
        rcases List.any_eq_true.mp ha with ⟨e, he, hf⟩
        exact (List.any_eq_true.mpr ⟨e, h.mem_iff.mp he, hf⟩).symm
      | false =>
        cases ha' : l'.any (fun e => strLower e.tag = k) with
        | true =>
          rcases List.any_eq_true.mp ha' with ⟨e, he, hf⟩
          rw [← ha]
          exact (List.any_eq_true.mpr ⟨e, h.mem_iff.mpr he, hf⟩)
        | false => rfl
    have hsum : (l.map (contribOf sw k)).sum = (l'.map (contribOf sw k)).sum :=
      (h.map (contribOf sw k)).sum_eq
    have hs1 : (dget? (calculate_tag_weights l sw) k).isSome
        = (dget? (calculate_tag_weights l' sw) k).isSome := by
      rw [calculate_tag_weights, calculate_tag_weights,
        tagWeights_presence sw k hk, tagWeights_presence sw k hk, hany]
    have hv1 : dgetD (calculate_tag_weights l sw) k 0
        = dgetD (calculate_tag_weights l' sw) k 0 := by
      rw [calculate_tag_weights, calculate_tag_weights,
        tagWeights_value sw k hk, tagWeights_value sw k hk, hsum]
    cases ho : dget? (calculate_tag_weights l sw) k with
    | none =>
      cases ho' : dget? (calculate_tag_weights l' sw) k with
      | none => rfl
      | some b => rw [ho, ho'] at hs1; simp at hs1
    | some a =>
      cases ho' : dget? (calculate_tag_weights l' sw) k with
      | none => rw [ho, ho'] at hs1; simp at hs1
      | some b =>
        unfold dgetD at hv1
        rw [ho, ho'] at hv1
        simpa using hv1

/-- C5 witness: swapping the two evidence records about the spa tag leaves
the accumulated weight dict unchanged at the key spa. -/
theorem calculate_tag_weights_perm_invariant_witness :
    dget? (calculate_tag_weights
      [⟨"Spa", "booking", ""⟩, ⟨"spa", "agoda", ""⟩] defaultSourceWeights) "spa"
      = dget? (calculate_tag_weights
        [⟨"spa", "agoda", ""⟩, ⟨"Spa", "booking", ""⟩] defaultSourceWeights) "spa" :=
  calculate_tag_weights_perm_invariant defaultSourceWeights _ _
    (List.Perm.swap ⟨"spa", "agoda", ""⟩ ⟨"Spa", "booking", ""⟩ []) "spa"

/-! ## Theorems about merge_nbd_purposes -/

theorem applyAdd_dgetD (cats : List String) (m : List (String × ℚ)) (amt : ℚ)
    (c : String) :
    dgetD (applyAdd m cats amt) c 0 = dgetD m c 0 + (cats.count c : ℚ) * amt := by
  induction cats generalizing m with
  | nil => simp [applyAdd]
  | cons x rest ih =>
    rw [applyAdd, List.foldl_cons]
    have := ih (dset m x (dgetD m x 0 + amt))
    rw [applyAdd] at this
    rw [this, dgetD_dset, List.count_cons]
    simp only [beq_iff_eq]
    by_cases h : c = x
    · rw [if_pos h, if_pos h.symm, ← h]
      push_cast
      ring
    · rw [if_neg h, if_neg (fun hh => h hh.symm)]
      push_cast
      ring

theorem applyAdd_isSome (cats : List String) (m : List (String × ℚ)) (amt : ℚ)
    (c : String) :
    (dget? (applyAdd m cats amt) c).isSome
      = ((dget? m c).isSome || cats.contains c) := by
  induction cats generalizing m with
  | nil => simp [applyAdd]
  | cons x rest ih =>
    rw [applyAdd, List.foldl_cons]
    have := ih (dset m x (dgetD m x 0 + amt))
    rw [applyAdd] at this
    rw [this, isSome_dget?_dset, List.contains_cons]
    by_cases h : c = x
    · simp [h]
    · have : ¬c = x := h
      cases hmc : (dget? m c).isSome <;> cases hrc : rest.contains c <;>
        simp [hmc, hrc, this, beq_iff_eq]

/-- C6: a purpose label absent from the purpose map is not dropped: the
DEFAULT entry applies, each of its main categories gains merge weight times
its multiplicity (so exactly the merge weight when listed once, created at
that value when absent before), and likewise for subcategories; presence in
the merged main dict is presence before or membership in the DEFAULT mains. -/
theorem merge_nbd_purposes_default_fallback
    (ms ss : List (String × ℚ)) (p : String)
    (nm : List (String × List (String × NbdEntry))) (dm : NbdEntry) (w : ℚ)
    (c : String)
    (habs : dget? (dgetD nm "nbd_to_main" []) p = none)
    (hdef : dget? (dgetD nm "nbd_to_main" []) "DEFAULT" = some dm) :
    dgetD (merge_nbd_purposes ms ss [p] nm w).1 c 0
      = dgetD ms c 0 + (dm.main.count c : ℚ) * w ∧
    dgetD (merge_nbd_purposes ms ss [p] nm w).2 c 0
      = dgetD ss c 0 + (dm.sub.count c : ℚ) * w ∧
    (dget? (merge_nbd_purposes ms ss [p] nm w).1 c).isSome
      = ((dget? ms c).isSome || dm.main.contains c) := by
  unfold merge_nbd_purposes
  rw [List.foldl_cons, List.foldl_nil]
  unfold mergeStep
  rw [habs, hdef]
  simp only [Option.getD_none, Option.getD_some]
  exact ⟨applyAdd_dgetD dm.main ms w c, applyAdd_dgetD dm.sub ss w c,
    applyAdd_isSome dm.main ms w c⟩

/-- C6 witness: the unknown purpose label falls back to the populated
DEFAULT entry and adds the merge weight 2 under Leisure (new key, created
at 2) and Beach, leaving the preexisting Business key present. -/
theorem merge_nbd_purposes_default_fallback_witness :
    dgetD (merge_nbd_purposes [("Business", 1)] [] ["unknown"]
        [("nbd_to_main", [("DEFAULT", ⟨["Leisure"], ["Beach"]⟩)])] 2).1 "Leisure" 0
      = dgetD [("Business", (1 : ℚ))] "Leisure" 0
        + (([("Leisure" : String)].count "Leisure" : ℚ)) * 2 ∧
    dgetD (merge_nbd_purposes [("Business", 1)] [] ["unknown"]
        [("nbd_to_main", [("DEFAULT", ⟨["Leisure"], ["Beach"]⟩)])] 2).2 "Beach" 0
      = dgetD ([] : List (String × ℚ)) "Beach" 0
        + (([("Beach" : String)].count "Beach" : ℚ)) * 2 := by
  have h1 := merge_nbd_purposes_default_fallback [("Business", 1)] [] "unknown"
    [("nbd_to_main", [("DEFAULT", ⟨["Leisure"], ["Beach"]⟩)])] ⟨["Leisure"], ["Beach"]⟩
    2 "Leisure" (by decide) (by decide)
  have h2 := merge_nbd_purposes_default_fallback [("Business", 1)] [] "unknown"
    [("nbd_to_main", [("DEFAULT", ⟨["Leisure"], ["Beach"]⟩)])] ⟨["Leisure"], ["Beach"]⟩
    2 "Beach" (by decide) (by decide)
  exact ⟨h1.1, h2.2.1⟩

/-! ## Theorems about aggregate_scores_by_category -/

/-- Shape of a chosen best match: some taxonomy entry and one of its
keywords that matches the tag, with the score the code computes,
len(keyword) / max(len(keyword), len(tag)). -/
def MatchChosen (tms : List (String × MappingConfig)) (t : String)
    (b : Option MappingConfig × ℚ) : Prop :=
  ∃ mp ∈ tms, ∃ k ∈ mp.2.keywords, matchesB k t = true ∧
    b.1 = some mp.2 ∧
    b.2 = (k.data.length : ℚ) / max (k.data.length : ℚ) (t.data.length : ℚ)

theorem keywords_foldl_shape (t : String) (mp : String × MappingConfig)
    (tms : List (String × MappingConfig)) (hmp : mp ∈ tms)
    (ks : List String) (hks : ∀ k ∈ ks, k ∈ mp.2.keywords)
    (b : Option MappingConfig × ℚ)
    (hb : b = (none, 0) ∨ MatchChosen tms t b) :
    ks.foldl (fun b keyword =>
        if matchesB keyword t then
          if b.2 < pairScore keyword t then (some mp.2, pairScore keyword t) else b
        else b) b = (none, 0) ∨
      MatchChosen tms t (ks.foldl (fun b keyword =>
        if matchesB keyword t then
          if b.2 < pairScore keyword t then (some mp.2, pairScore keyword t) else b
        else b) b) := by
  induction ks generalizing b with
  | nil => exact hb
  | cons k ks ih =>
    rw [List.foldl_cons]
    refine ih (fun x hx => hks x (List.mem_cons_of_mem k hx)) _ ?_
    by_cases hm : matchesB k t = true
    · rw [if_pos hm]
      by_cases hsc : b.2 < pairScore k t
      · rw [if_pos hsc]
        exact Or.inr ⟨mp, hmp, k, hks k (List.mem_cons_self k ks), hm, rfl, rfl⟩
      · rw [if_neg hsc]; exact hb
    · rw [if_neg hm]; exact hb

theorem bestFor_shape (tms : List (String × MappingConfig)) (t : String) :
    bestFor tms t = (none, 0) ∨ MatchChosen tms t (bestFor tms t) := by
  rw [bestFor]
  have main : ∀ (l : List (String × MappingConfig)), (∀ mp ∈ l, mp ∈ tms) →
      ∀ (b : Option MappingConfig × ℚ), (b = (none, 0) ∨ MatchChosen tms t b) →
      l.foldl (fun best mp =>
          mp.2.keywords.foldl (fun b keyword =>
            if matchesB keyword t then
              if b.2 < pairScore keyword t then (some mp.2, pairScore keyword t)
              else b
            else b) best) b = (none, 0) ∨
        MatchChosen tms t (l.foldl (fun best mp =>
          mp.2.keywords.foldl (fun b keyword =>
            if matchesB keyword t then
              if b.2 < pairScore keyword t then (some mp.2, pairScore keyword t)
              else b
            else b) best) b) := by
    intro l
    induction l with
    | nil => exact fun _ b hb => hb
    | cons mp l ih =>
      intro hl b hb
      rw [List.foldl_cons]
      refine ih (fun x hx => hl x (List.mem_cons_of_mem mp hx)) _ ?_
      exact keywords_foldl_shape t mp tms (hl mp (List.mem_cons_self mp l))
        mp.2.keywords (fun _ h => h) b hb
  exact main tms (fun _ h => h) (none, 0) (Or.inl rfl)

/-- C4 (amended): the match score the Category Aggregator uses is
len(keyword) / max(len(keyword), len(tag)) — not min/max: every chosen
best match carries a score of exactly that form for a matching pair, and
for a single-tag, single-entry, single-keyword taxonomy match the winning
entry adds weight times that score to its main category and to each
declared subcategory (per multiplicity). -/
theorem aggregate_match_score_code_formula
    (tms : List (String × MappingConfig)) (t : String) (w : ℚ)
    (name k : String) (mc : MappingConfig)
    (hkw : mc.keywords = [k]) (hmatch : matchesB k t = true)
    (hpos : 0 < pairScore k t) (hmain : mc.main ≠ "") :
    (bestFor tms t = (none, 0) ∨ MatchChosen tms t (bestFor tms t)) ∧
    (aggregate_scores_by_category [(t, w)] [(name, mc)]).1
      = [(mc.main,
          w * ((k.data.length : ℚ) / max (k.data.length : ℚ) (t.data.length : ℚ)))] ∧
    (∀ c, dgetD (aggregate_scores_by_category [(t, w)] [(name, mc)]).2 c 0
      = (mc.sub.count c : ℚ)
        * (w * ((k.data.length : ℚ) / max (k.data.length : ℚ) (t.data.length : ℚ)))) := by
  have hbest : bestFor [(name, mc)] t = (some mc, pairScore k t) := by
    rw [bestFor, List.foldl_cons, List.foldl_nil, hkw, List.foldl_cons, List.foldl_nil]
    rw [if_pos hmatch,
      if_pos (show ((none : Option MappingConfig), (0 : ℚ)).2 < pairScore k t from hpos)]
  refine ⟨bestFor_shape tms t, ?_, ?_⟩
  · simp only [aggregate_scores_by_category, List.foldl_cons, List.foldl_nil, hbest]
    rw [if_neg hmain]
    simp [dset, dgetD, dget?, pairScore]
  · intro c
    simp only [aggregate_scores_by_category, List.foldl_cons, List.foldl_nil, hbest]
    rw [applyAdd_dgetD]
    simp [dgetD, dget?, pairScore]

/-- C4 witness: at tag beach, weight 1, single taxonomy entry with keyword
beaches, main Leisure, one subcategory: the hypotheses hold concretely. -/
theorem aggregate_match_score_code_formula_witness :
    (bestFor [("m", ⟨["beaches"], "Leisure", ["Beach_Resort"]⟩)] "beach" = (none, 0) ∨
      MatchChosen [("m", ⟨["beaches"], "Leisure", ["Beach_Resort"]⟩)] "beach"
        (bestFor [("m", ⟨["beaches"], "Leisure", ["Beach_Resort"]⟩)] "beach")) ∧
    (aggregate_scores_by_category [("beach", 1)]
        [("m", ⟨["beaches"], "Leisure", ["Beach_Resort"]⟩)]).1
      = [(MappingConfig.main ⟨["beaches"], "Leisure", ["Beach_Resort"]⟩,
          1 * (("beaches".data.length : ℚ)
            / max (("beaches".data.length : ℚ)) (("beach".data.length : ℚ))))] ∧
    (∀ c, dgetD (aggregate_scores_by_category [("beach", 1)]
        [("m", ⟨["beaches"], "Leisure", ["Beach_Resort"]⟩)]).2 c 0
      = ((MappingConfig.sub ⟨["beaches"], "Leisure", ["Beach_Resort"]⟩).count c : ℚ)
        * (1 * (("beaches".data.length : ℚ)
            / max (("beaches".data.length : ℚ)) (("beach".data.length : ℚ))))) :=
  aggregate_match_score_code_formula
    [("m", ⟨["beaches"], "Leisure", ["Beach_Resort"]⟩)] "beach" 1 "m" "beaches"
    ⟨["beaches"], "Leisure", ["Beach_Resort"]⟩ rfl (by decide)
    (by norm_num [pairScore, show "beaches".data.length = 7 from by decide,
      show "beach".data.length = 5 from by decide])
    (by decide)

/-- C4 counterexample for the claim as stated: keyword beaches (length 7)
matches tag beach (length 5); the code contributes weight times 7/7 = 1,
whereas the claimed min/max formula predicts weight times 5/7. -/
theorem aggregate_min_ratio_cex :
    dgetD (aggregate_scores_by_category [("beach", 1)]
        [("m", ⟨["beaches"], "Leisure", []⟩)]).1 "Leisure" 0 = 1 ∧
    ¬((1 : ℚ) = 1 * (min (("beaches".data.length : ℚ)) (("beach".data.length : ℚ))
        / max (("beaches".data.length : ℚ)) (("beach".data.length : ℚ)))) := by
  constructor
  · norm_num +decide [aggregate_scores_by_category, bestFor, matchesB, pairScore,
      applyAdd, dgetD, dget?, dset,
      show strIn (strLower "beaches") (strLower "beach") = false from by decide,
      show strIn (strLower "beach") (strLower "beaches") = true from by decide,
      show "beaches".data.length = 7 from by decide,
      show "beach".data.length = 5 from by decide]
  · rw [show "beaches".data.length = 7 from by decide,
      show "beach".data.length = 5 from by decide]
    norm_num

/-! ## Theorems about the store-level merge (aliasing / frame) -/

theorem readRef_set_ne (st : List (List (String × ℚ))) (i r : ℕ)
    (v : List (String × ℚ)) (h : i ≠ r) :
    readRef (st.set i v) r = readRef st r := by
  unfold readRef
  rw [List.getD_eq_getElem?_getD, List.getD_eq_getElem?_getD, List.getElem?_set_ne h]

theorem readRef_set_self (st : List (List (String × ℚ))) (i : ℕ)
    (v : List (String × ℚ)) (h : i < st.length) :
    readRef (st.set i v) i = v := by
  unfold readRef
  rw [List.getD_eq_getElem?_getD, List.getElem?_set_self h]
  rfl

theorem readRef_append_lt (st l : List (List (String × ℚ))) (r : ℕ)
    (h : r < st.length) :
    readRef (st ++ l) r = readRef st r :=
  List.getD_append _ _ _ _ h

theorem readRef_append_self (st : List (List (String × ℚ)))
    (x : List (String × ℚ)) :
    readRef (st ++ [x]) st.length = x := by
  unfold readRef
  rw [List.getD_append_right _ _ _ _ (le_refl _)]
  simp

theorem foldl_mergeRefStep_frame (ntm : List (String × NbdEntry)) (w : ℚ)
    (ps : List String) (msC ssC r : ℕ) (h1 : msC ≠ r) (h2 : ssC ≠ r) :
    ∀ s, readRef (ps.foldl (mergeRefStep msC ssC ntm w) s) r = readRef s r := by
  induction ps with
  | nil => intro s; rfl
  | cons p ps ih =>
    intro s
    rw [List.foldl_cons, ih]
    unfold mergeRefStep
    rw [readRef_set_ne _ _ _ _ h2, readRef_set_ne _ _ _ _ h1]

theorem mergeRefStep_length (ntm : List (String × NbdEntry)) (w : ℚ)
    (msC ssC : ℕ) (s : List (List (String × ℚ))) (p : String) :
    (mergeRefStep msC ssC ntm w s p).length = s.length := by
  unfold mergeRefStep
  rw [List.length_set, List.length_set]

theorem foldl_mergeRefStep_sim (ntm : List (String × NbdEntry)) (w : ℚ)
    (ps : List String) (msC ssC : ℕ) (hne : msC ≠ ssC) :
    ∀ s, msC < s.length → ssC < s.length →
      readRef (ps.foldl (mergeRefStep msC ssC ntm w) s) msC
          = (ps.foldl (mergeStep ntm w) (readRef s msC, readRef s ssC)).1 ∧
      readRef (ps.foldl (mergeRefStep msC ssC ntm w) s) ssC
          = (ps.foldl (mergeStep ntm w) (readRef s msC, readRef s ssC)).2 := by
  induction ps with
  | nil => exact fun s _ _ => ⟨rfl, rfl⟩
  | cons p ps ih =>
    intro s hms hss
    rw [List.foldl_cons, List.foldl_cons]
    have hs1ms : readRef (mergeRefStep msC ssC ntm w s p) msC
        = applyAdd (readRef s msC)
            ((dget? ntm p).getD ((dget? ntm "DEFAULT").getD emptyNbdEntry)).main w := by
      unfold mergeRefStep
      rw [readRef_set_ne _ _ _ _ (Ne.symm hne), readRef_set_self _ _ _ hms]
    have hs1ss : readRef (mergeRefStep msC ssC ntm w s p) ssC
        = applyAdd (readRef s ssC)
            ((dget? ntm p).getD ((dget? ntm "DEFAULT").getD emptyNbdEntry)).sub w := by
      unfold mergeRefStep
      rw [readRef_set_self _ _ _ (by rw [List.length_set]; exact hss),
        readRef_set_ne _ _ _ _ hne]
    have hlen := mergeRefStep_length ntm w msC ssC s p
    have hrec := ih (mergeRefStep msC ssC ntm w s p)
      (by rw [hlen]; exact hms) (by rw [hlen]; exact hss)
    rw [hs1ms, hs1ss] at hrec
    have hstep : mergeStep ntm w (readRef s msC, readRef s ssC) p
        = (applyAdd (readRef s msC)
            ((dget? ntm p).getD ((dget? ntm "DEFAULT").getD emptyNbdEntry)).main w,
           applyAdd (readRef s ssC)
            ((dget? ntm p).getD ((dget? ntm "DEFAULT").getD emptyNbdEntry)).sub w) := rfl
    rw [hstep]
    exact hrec

/-- C10: merge_nbd_purposes never mutates its caller's dicts: in the store
model it allocates two fresh cells (the returned references st.length and
st.length + 1, distinct from every valid caller reference), every
preexisting cell reads unchanged after the call, and the two fresh cells
hold exactly the pure function's updated copies. -/
theorem merge_nbd_purposes_refs_frame
    (st : List (List (String × ℚ))) (msR ssR : ℕ) (ps : List String)
    (nm : List (String × List (String × NbdEntry))) (w : ℚ) (r : ℕ)
    (hr : r < st.length) (_hms : msR < st.length) (hss : ssR < st.length) :
    readRef (merge_nbd_purposes_refs st msR ssR ps nm w).1 r = readRef st r ∧
    (merge_nbd_purposes_refs st msR ssR ps nm w).2.1 = st.length ∧
    (merge_nbd_purposes_refs st msR ssR ps nm w).2.2 = st.length + 1 ∧
    readRef (merge_nbd_purposes_refs st msR ssR ps nm w).1 st.length
      = (merge_nbd_purposes (readRef st msR) (readRef st ssR) ps nm w).1 ∧
    readRef (merge_nbd_purposes_refs st msR ssR ps nm w).1 (st.length + 1)
      = (merge_nbd_purposes (readRef st msR) (readRef st ssR) ps nm w).2 := by
  have hlen1 : (st ++ [readRef st msR]).length = st.length + 1 := by simp
  have hdef : merge_nbd_purposes_refs st msR ssR ps nm w
      = (ps.foldl (mergeRefStep st.length (st ++ [readRef st msR]).length
            (dgetD nm "nbd_to_main" []) w)
          ((st ++ [readRef st msR]) ++ [readRef (st ++ [readRef st msR]) ssR]),
         st.length, (st ++ [readRef st msR]).length) := rfl
  have hpure : ∀ a b, merge_nbd_purposes a b ps nm w
      = ps.foldl (mergeStep (dgetD nm "nbd_to_main" []) w) (a, b) := fun a b => rfl
  have hst2r : ∀ q, q < st.length →
      readRef ((st ++ [readRef st msR]) ++ [readRef (st ++ [readRef st msR]) ssR]) q
        = readRef st q := by
    intro q hq
    rw [readRef_append_lt _ _ _ (by rw [hlen1]; omega), readRef_append_lt _ _ _ hq]
  have h2ms : readRef ((st ++ [readRef st msR])
        ++ [readRef (st ++ [readRef st msR]) ssR]) st.length
      = readRef st msR := by
    rw [readRef_append_lt _ _ _ (by rw [hlen1]; omega), readRef_append_self]
  have h2ss : readRef ((st ++ [readRef st msR])
        ++ [readRef (st ++ [readRef st msR]) ssR]) (st ++ [readRef st msR]).length
      = readRef st ssR := by
    rw [readRef_append_self, readRef_append_lt _ _ _ hss]
  have hst2len : ((st ++ [readRef st msR])
      ++ [readRef (st ++ [readRef st msR]) ssR]).length = st.length + 2 := by simp
  have hsim := foldl_mergeRefStep_sim (dgetD nm "nbd_to_main" []) w ps st.length
    (st ++ [readRef st msR]).length (by rw [hlen1]; omega)
    ((st ++ [readRef st msR]) ++ [readRef (st ++ [readRef st msR]) ssR])
    (by rw [hst2len]; omega) (by rw [hst2len, hlen1]; omega)
  rw [h2ms, h2ss] at hsim
  rw [hdef]
  refine ⟨?_, rfl, hlen1, ?_, ?_⟩
  · rw [foldl_mergeRefStep_frame (dgetD nm "nbd_to_main" []) w ps st.length
      (st ++ [readRef st msR]).length r (by omega) (by rw [hlen1]; omega)]
    exact hst2r r hr
  · rw [hpure]
    exact hsim.1
  · rw [hpure, ← hlen1]
    exact hsim.2

/-- C10 witness: a two-cell store; merging one purpose through a DEFAULT
mapping leaves both original cells unchanged, returns the fresh references
2 and 3, and the fresh cells hold the pure merge of the copies. -/
theorem merge_nbd_purposes_refs_frame_witness :
    readRef (merge_nbd_purposes_refs [[("a", 1)], [("b", 2)]] 0 1 ["x"]
        [("nbd_to_main", [("DEFAULT", ⟨["L"], ["S"]⟩)])] 2).1 0
      = readRef [[("a", 1)], [("b", 2)]] 0 ∧
    (merge_nbd_purposes_refs [[("a", 1)], [("b", 2)]] 0 1 ["x"]
        [("nbd_to_main", [("DEFAULT", ⟨["L"], ["S"]⟩)])] 2).2.1
      = [[("a", (1 : ℚ))], [("b", 2)]].length ∧
    (merge_nbd_purposes_refs [[("a", 1)], [("b", 2)]] 0 1 ["x"]
        [("nbd_to_main", [("DEFAULT", ⟨["L"], ["S"]⟩)])] 2).2.2
      = [[("a", (1 : ℚ))], [("b", 2)]].length + 1 ∧
    readRef (merge_nbd_purposes_refs [[("a", 1)], [("b", 2)]] 0 1 ["x"]
        [("nbd_to_main", [("DEFAULT", ⟨["L"], ["S"]⟩)])] 2).1
        [[("a", (1 : ℚ))], [("b", 2)]].length
      = (merge_nbd_purposes (readRef [[("a", 1)], [("b", 2)]] 0)
          (readRef [[("a", 1)], [("b", 2)]] 1) ["x"]
          [("nbd_to_main", [("DEFAULT", ⟨["L"], ["S"]⟩)])] 2).1 ∧
    readRef (merge_nbd_purposes_refs [[("a", 1)], [("b", 2)]] 0 1 ["x"]
        [("nbd_to_main", [("DEFAULT", ⟨["L"], ["S"]⟩)])] 2).1
        ([[("a", (1 : ℚ))], [("b", 2)]].length + 1)
      = (merge_nbd_purposes (readRef [[("a", 1)], [("b", 2)]] 0)
          (readRef [[("a", 1)], [("b", 2)]] 1) ["x"]
          [("nbd_to_main", [("DEFAULT", ⟨["L"], ["S"]⟩)])] 2).2 :=
  merge_nbd_purposes_refs_frame [[("a", 1)], [("b", 2)]] 0 1 ["x"]
    [("nbd_to_main", [("DEFAULT", ⟨["L"], ["S"]⟩)])] 2 0
    (by norm_num) (by norm_num) (by norm_num)

end TravelPurpose
